import Mathlib

/-!
Verification of the query and transaction layer of a bbolt-backed datastore
(Go package dsbbolt: datastore.go, txn.go, util.go).

The bbolt engine is modelled as a list of key/value pairs kept in strictly
ascending unsigned byte-lexicographic key order, which is the invariant a
bbolt bucket maintains and the order its cursor iterates in.  Byte slices
are modelled as lists of naturals.  Go functions are translated one-to-one:
`bytesCompare` is Go's bytes.Compare, `cursorSeek` is Cursor.Seek (first key
not below the target), `scanLoop` is the cursor loop inside
`queryWithCursor`, and the facade operations mirror datastore.go / txn.go.

The Go wrapper feeds the scanned entries through query.ResultsWithEntries
and query.NaiveQueryApply; for query descriptors that carry no filters,
orders, limit or offset (the only descriptors modelled here, with fields
Prefix / Range.Start / Range.End / KeysOnly) that post-processing is the
identity, so queryWithCursor returns the entry list directly.
-/

namespace DsBbolt

/-- Go byte slices ([]byte) are lists of naturals. -/
abbrev Bytes := List Nat

/-- Go bytes.Compare: three-way unsigned byte-lexicographic comparison. -/
def bytesCompare : Bytes → Bytes → Ordering
  | [], [] => .eq
  | [], _ :: _ => .lt
  | _ :: _, [] => .gt
  | a :: as, b :: bs =>
    if a < b then .lt
    else if b < a then .gt
    else bytesCompare as bs

/-- Key types of the daotl go-datastore key package
(dskey.KeyTypeBytes / dskey.KeyTypeString). -/
inductive KeyType where
  | bytes
  | string
deriving DecidableEq, Repr

/-- A dskey.Key: a key-type tag together with the byte encoding. -/
structure Key where
  ktype : KeyType
  bytes : Bytes
deriving DecidableEq, Repr

/-- The errors the layer surfaces: ErrKeyTypeNotMatch (datastore.go) and
datastore.ErrNotFound. -/
inductive DsError where
  | keyTypeNotMatch
  | notFound
deriving DecidableEq, Repr

/-- A query.Entry as built by toQueryEntry: key, optional value (nil when
KeysOnly), and the value's byte length. -/
structure Entry where
  key : Key
  value : Option Bytes
  size : Nat
deriving DecidableEq, Repr

/-- The modelled part of a query.Query descriptor: Prefix, Range.Start,
Range.End, KeysOnly.  (Filters/orders/limit/offset are absent, i.e. at
their zero values, where the generic post-processing is the identity.) -/
structure Query where
  pfx : Option Key
  rangeStart : Option Key
  rangeEnd : Option Key
  keysOnly : Bool
deriving DecidableEq, Repr

/-- util.go copyBytes: a defensive copy; value-equal to the source. -/
def copyBytes (src : Bytes) : Bytes := src

/-- util.go toQueryEntry. -/
def toQueryEntry (k v : Bytes) (keysOnly : Bool) : Entry :=
  ⟨⟨KeyType.bytes, copyBytes k⟩, if keysOnly then none else some (copyBytes v), v.length⟩

/-- datastore.go keyTypeMismatch: true iff the optional key is present and
its key-type differs from the store's. -/
def keyTypeMismatch (q : Option Key) (keyType : KeyType) : Bool :=
  match q with
  | some k => k.ktype != keyType
  | none => false

/-- Bucket contents: key/value pairs in ascending key order. -/
abbrev Store := List (Bytes × Bytes)

/-- Strict byte-lexicographic order on stored entries (by key). -/
def storeLt (a b : Bytes × Bytes) : Prop := bytesCompare a.1 b.1 = .lt

instance : DecidableRel storeLt := fun a b => by
  unfold storeLt; infer_instance

/-- Well-formedness of a bbolt bucket: keys strictly ascending. -/
def WFStore (s : Store) : Prop := s.Pairwise storeLt

instance : DecidablePred WFStore := fun s => by
  unfold WFStore; infer_instance

/-- Engine lookup (bbolt Bucket.Get): the value stored at `k`, if any. -/
def engineGet (s : Store) (k : Bytes) : Option Bytes :=
  match s.find? (fun e => e.1 == k) with
  | some e => some e.2
  | none => none

/-- Engine insert (bbolt Bucket.Put): store `v` at `k`, keeping order. -/
def enginePut : Store → Bytes → Bytes → Store
  | [], k, v => [(k, v)]
  | (k', v') :: rest, k, v =>
    match bytesCompare k k' with
    | .lt => (k, v) :: (k', v') :: rest
    | .eq => (k, v) :: rest
    | .gt => (k', v') :: enginePut rest k v

/-- Engine delete (bbolt Bucket.Delete): remove `k` if present; deleting an
absent key is a no-op, never an error. -/
def engineDelete : Store → Bytes → Store
  | [], _ => []
  | (k', v') :: rest, k =>
    if k = k' then rest else (k', v') :: engineDelete rest k

/-- bbolt Cursor.Seek: position at the first key not below `start`; the
remaining entries are what the cursor will iterate. -/
def cursorSeek (s : Store) (start : Bytes) : Store :=
  s.dropWhile (fun e => bytesCompare e.1 start == .lt)

/-- The cursor loop of queryWithCursor (datastore.go lines 169-181):
break on prefix mismatch, skip the key equal to the prefix, break when
Range.End <= key, otherwise emit the entry. -/
def scanLoop (cp : Bool) (pref : Bytes) (ce : Bool) (endB : Bytes)
    (ko : Bool) : Store → List Entry
  | [] => []
  | (k, v) :: rest =>
    if cp && !(pref.isPrefixOf k) then []
    else if cp && (k == pref) then scanLoop cp pref ce endB ko rest
    else if ce && !(bytesCompare endB k == .gt) then []
    else toQueryEntry k v ko :: scanLoop cp pref ce endB ko rest

/-- datastore.go queryWithCursor.  The two KeyTypeString early returns of
the Go switch statements are hoisted in front of the scan set-up; they fire
under exactly the same conditions (Prefix resp. Range.Start present while
the store's key-type is String) and, like in Go, before any cursor use. -/
def queryWithCursor (s : Store) (q : Query) (ktype : KeyType) :
    Except DsError (List Entry) :=
  if keyTypeMismatch q.pfx ktype || keyTypeMismatch q.rangeStart ktype ||
      keyTypeMismatch q.rangeEnd ktype then
    .error .keyTypeNotMatch
  else if q.pfx.isSome && (ktype == KeyType.string) then
    .error .keyTypeNotMatch
  else if q.rangeStart.isSome && (ktype == KeyType.string) then
    .error .keyTypeNotMatch
  else
    let checkPrefix := q.pfx.isSome
    let pref : Bytes := match q.pfx with | some p => p.bytes | none => []
    let cursorStart0 : Bytes := match q.pfx with | some p => p.bytes | none => []
    let cursorStart : Bytes :=
      match q.rangeStart with
      | some rs =>
        if bytesCompare cursorStart0 rs.bytes = .lt then rs.bytes else cursorStart0
      | none => cursorStart0
    let checkRangeEnd := q.rangeEnd.isSome
    let endB : Bytes := match q.rangeEnd with | some e => e.bytes | none => []
    .ok (scanLoop checkPrefix pref checkRangeEnd endB q.keysOnly
      (cursorSeek s cursorStart))

/-- A Datastore (datastore.go): the bucket contents and the accepted
key-type.  The bbolt handle and bucket name carry no query semantics. -/
structure Datastore where
  db : Store
  ktype : KeyType
deriving DecidableEq, Repr

/-- datastore.go NewDatastore: rejects every key-type other than Bytes with
ErrKeyTypeNotMatch; otherwise the store opens on the bucket's existing
contents. -/
def NewDatastore (contents : Store) (keytype : KeyType) :
    Except DsError Datastore :=
  if keytype ≠ KeyType.bytes then .error .keyTypeNotMatch
  else .ok (Datastore.mk contents keytype)

/-- datastore.go Datastore.Put. -/
def Datastore.Put (d : Datastore) (key : Key) (value : Bytes) :
    Except DsError Datastore :=
  if key.ktype ≠ d.ktype then .error .keyTypeNotMatch
  else .ok (Datastore.mk (enginePut d.db key.bytes value) d.ktype)

/-- datastore.go Datastore.Delete. -/
def Datastore.Delete (d : Datastore) (key : Key) : Except DsError Datastore :=
  if key.ktype ≠ d.ktype then .error .keyTypeNotMatch
  else .ok (Datastore.mk (engineDelete d.db key.bytes) d.ktype)

/-- datastore.go Datastore.Get: ErrNotFound when absent, else a copy of the
stored bytes. -/
def Datastore.Get (d : Datastore) (key : Key) : Except DsError Bytes :=
  if key.ktype ≠ d.ktype then .error .keyTypeNotMatch
  else
    match engineGet d.db key.bytes with
    | none => .error .notFound
    | some data => .ok (copyBytes data)

/-- datastore.go Datastore.Has, via datastore.GetBackedHas: (exists, error)
pair; ErrNotFound from Get is mapped to (false, nil). -/
def Datastore.Has (d : Datastore) (key : Key) : Bool × Option DsError :=
  if key.ktype ≠ d.ktype then (false, some .keyTypeNotMatch)
  else
    match d.Get key with
    | .ok _ => (true, none)
    | .error .notFound => (false, none)
    | .error e => (false, some e)

/-- datastore.go Datastore.GetSize, via datastore.GetBackedSize: (size,
error) pair; -1 accompanies every error. -/
def Datastore.GetSize (d : Datastore) (key : Key) : Int × Option DsError :=
  if key.ktype ≠ d.ktype then (-1, some .keyTypeNotMatch)
  else
    match d.Get key with
    | .ok v => ((v.length : Int), none)
    | .error e => (-1, some e)

/-- datastore.go Datastore.Query: queryWithCursor on a cursor over the
bucket. -/
def Datastore.Query (d : Datastore) (q : Query) : Except DsError (List Entry) :=
  queryWithCursor d.db q d.ktype

/-- A txn (txn.go): the bbolt transaction's bucket view and the key-type.
Only writable transactions are modelled; for read-only ones the engine
rejects writes, which this layer deliberately does not duplicate. -/
structure Txn where
  bucket : Store
  ktype : KeyType
deriving DecidableEq, Repr

/-- txn.go Datastore.NewTransaction: the txn inherits the bucket and the
key-type.  The readOnly flag selects the engine scope and is not stored. -/
def Datastore.NewTransaction (d : Datastore) (readOnly : Bool) : Txn :=
  Txn.mk d.db d.ktype

/-- txn.go txn.Get.  The Go body fetches `data` from the bucket but then
returns copyBytes(value) where `value` is the (still nil) named return, so
every successful call returns empty bytes, never the stored data. -/
def Txn.Get (b : Txn) (key : Key) : Except DsError Bytes :=
  if key.ktype ≠ b.ktype then .error .keyTypeNotMatch
  else
    match engineGet b.bucket key.bytes with
    | none => .error .notFound
    | some _data => .ok (copyBytes [])

/-- txn.go txn.Has. -/
def Txn.Has (b : Txn) (key : Key) : Bool × Option DsError :=
  if key.ktype ≠ b.ktype then (false, some .keyTypeNotMatch)
  else
    match engineGet b.bucket key.bytes with
    | none => (false, none)
    | some _ => (true, none)

/-- txn.go txn.GetSize: (size, error) pair; -1 accompanies every error. -/
def Txn.GetSize (b : Txn) (key : Key) : Int × Option DsError :=
  if key.ktype ≠ b.ktype then (-1, some .keyTypeNotMatch)
  else
    match engineGet b.bucket key.bytes with
    | none => (-1, some .notFound)
    | some data => ((data.length : Int), none)

/-- txn.go txn.Put. -/
def Txn.Put (b : Txn) (key : Key) (value : Bytes) : Except DsError Txn :=
  if key.ktype ≠ b.ktype then .error .keyTypeNotMatch
  else .ok (Txn.mk (enginePut b.bucket key.bytes value) b.ktype)

/-- txn.go txn.Delete. -/
def Txn.Delete (b : Txn) (key : Key) : Except DsError Txn :=
  if key.ktype ≠ b.ktype then .error .keyTypeNotMatch
  else .ok (Txn.mk (engineDelete b.bucket key.bytes) b.ktype)

/-- txn.go txn.Query. -/
def Txn.Query (b : Txn) (q : Query) : Except DsError (List Entry) :=
  queryWithCursor b.bucket q b.ktype

/-- txn.go txn.Discard, given the engine rollback's outcome: the surfaced
error (first component, always none) and the log lines printed (second
component; the rollback error is only logged). -/
def Txn.Discard (rollback : Except DsError Unit) :
    Option DsError × List String :=
  match rollback with
  | .error _ => (none, ["bolt rollback err"])
  | .ok _ => (none, [])

/-- The emit condition of the cursor loop for a visited key: the prefix
check (shares the prefix and is not byte-equal to it) and the exclusive
Range.End bound. -/
def scanKeep (cp : Bool) (pref : Bytes) (ce : Bool) (endB : Bytes)
    (k : Bytes) : Bool :=
  (!cp || (pref.isPrefixOf k && !(k == pref))) &&
  (!ce || (bytesCompare k endB == .lt))

/-- The observable selection predicate of a query on a stored key: strict
prefix descendant, at or after Range.Start, strictly before Range.End. -/
def matchesQuery (q : Query) (k : Bytes) : Bool :=
  (match q.pfx with
   | some p => p.bytes.isPrefixOf k && !(k == p.bytes)
   | none => true) &&
  (match q.rangeStart with
   | some sk => !(bytesCompare k sk.bytes == .lt)
   | none => true) &&
  (match q.rangeEnd with
   | some ek => bytesCompare k ek.bytes == .lt
   | none => true)

/-! ### Order-theoretic facts about bytes.Compare -/

theorem bytesCompare_self (a : Bytes) : bytesCompare a a = .eq := by
  induction a with
  | nil => rfl
  | cons x xs ih => simp [bytesCompare, ih]

theorem bytesCompare_eq_iff {a b : Bytes} : bytesCompare a b = .eq ↔ a = b := by
  induction a generalizing b with
  | nil => cases b <;> simp [bytesCompare]
  | cons x xs ih =>
    cases b with
    | nil => simp [bytesCompare]
    | cons y ys =>
      by_cases hxy : x < y
      · simp [bytesCompare, hxy]
        omega
      · by_cases hyx : y < x
        · simp [bytesCompare, hxy, hyx]
          omega
        · have hxyeq : x = y := by omega
          subst hxyeq
          simp [bytesCompare, ih]

theorem bytesCompare_swap (a b : Bytes) :
    bytesCompare b a = (bytesCompare a b).swap := by
  induction a generalizing b with
  | nil => cases b <;> simp [bytesCompare, Ordering.swap]
  | cons x xs ih =>
    cases b with
    | nil => simp [bytesCompare, Ordering.swap]
    | cons y ys =>
      by_cases hxy : x < y
      · have hyx : ¬ y < x := by omega
        simp [bytesCompare, hxy, hyx, Ordering.swap]
      · by_cases hyx : y < x
        · simp [bytesCompare, hxy, hyx, Ordering.swap]
        · simp [bytesCompare, hxy, hyx, ih]

theorem bytesCompare_lt_trans {a b c : Bytes} (hab : bytesCompare a b = .lt)
    (hbc : bytesCompare b c = .lt) : bytesCompare a c = .lt := by
  induction a generalizing b c with
  | nil =>
    cases b with
    | nil => exact absurd hab (by simp [bytesCompare])
    | cons y ys =>
      cases c with
      | nil => exact absurd hbc (by simp [bytesCompare])
      | cons z zs => simp [bytesCompare]
  | cons x xs ih =>
    cases b with
    | nil => exact absurd hab (by simp [bytesCompare])
    | cons y ys =>
      cases c with
      | nil => exact absurd hbc (by simp [bytesCompare])
      | cons z zs =>
        simp only [bytesCompare] at hab hbc ⊢
        by_cases hxy : x < y
        · by_cases hyz : y < z
          · have hxz : x < z := by omega
            simp [hxz]
          · by_cases hzy : z < y
            · simp [hyz, hzy] at hbc
            · have hyzeq : y = z := by omega
              subst hyzeq
              simp [hxy]
        · by_cases hyx : y < x
          · simp [hxy, hyx] at hab
          · have hxyeq : x = y := by omega
            subst hxyeq
            simp only [lt_self_iff_false, if_false] at hab
            by_cases hxz : x < z
            · simp [hxz]
            · by_cases hzx : z < x
              · simp [hxz, hzx] at hbc
              · have hxzeq : x = z := by omega
                subst hxzeq
                simp only [lt_self_iff_false, if_false] at hbc ⊢
                exact ih hab hbc

theorem bytesCompare_le_iff {a b : Bytes} :
    bytesCompare a b ≠ .gt ↔ (bytesCompare a b = .lt ∨ a = b) := by
  cases h : bytesCompare a b with
  | lt => simp
  | eq => simp [bytesCompare_eq_iff.mp h]
  | gt =>
    constructor
    · intro hc; exact absurd rfl hc
    · rintro (hc | hc)
      · exact absurd hc (by simp)
      · subst hc; rw [bytesCompare_self] at h; exact absurd h (by simp)

theorem bytesCompare_lt_asymm {a b : Bytes} (h : bytesCompare a b = .lt) :
    bytesCompare b a ≠ .lt := by
  rw [bytesCompare_swap, h]; simp [Ordering.swap]

theorem bytesCompare_lt_of_le_of_lt {a b c : Bytes}
    (hab : bytesCompare a b ≠ .gt) (hbc : bytesCompare b c = .lt) :
    bytesCompare a c = .lt := by
  rcases bytesCompare_le_iff.mp hab with h | h
  · exact bytesCompare_lt_trans h hbc
  · subst h; exact hbc

theorem bytesCompare_lt_of_lt_of_le {a b c : Bytes}
    (hab : bytesCompare a b = .lt) (hbc : bytesCompare b c ≠ .gt) :
    bytesCompare a c = .lt := by
  rcases bytesCompare_le_iff.mp hbc with h | h
  · exact bytesCompare_lt_trans hab h
  · subst h; exact hab

theorem bytesCompare_le_trans {a b c : Bytes}
    (hab : bytesCompare a b ≠ .gt) (hbc : bytesCompare b c ≠ .gt) :
    bytesCompare a c ≠ .gt := by
  rcases bytesCompare_le_iff.mp hab with h | h
  · exact bytesCompare_le_iff.mpr (Or.inl (bytesCompare_lt_of_lt_of_le h hbc))
  · subst h; exact hbc

theorem bytesCompare_nil_not_lt (a : Bytes) : bytesCompare a [] ≠ .lt := by
  cases a <;> simp [bytesCompare]

theorem bytesCompare_le_of_lt {a b : Bytes} (h : bytesCompare a b = .lt) :
    bytesCompare a b ≠ .gt := by
  rw [h]; simp

/-! ### Prefix facts -/

theorem isPrefixOf_le {p k : Bytes} (h : p.isPrefixOf k = true) :
    bytesCompare p k ≠ .gt := by
  induction p generalizing k with
  | nil => cases k <;> simp [bytesCompare]
  | cons x xs ih =>
    cases k with
    | nil => simp [List.isPrefixOf] at h
    | cons y ys =>
      simp only [List.isPrefixOf, Bool.and_eq_true, beq_iff_eq] at h
      obtain ⟨hxy, hrest⟩ := h
      subst hxy
      simpa [bytesCompare] using ih hrest

theorem isPrefixOf_lt_of_ne {p k : Bytes} (h : p.isPrefixOf k = true)
    (hne : p ≠ k) : bytesCompare p k = .lt := by
  rcases bytesCompare_le_iff.mp (isPrefixOf_le h) with hc | hc
  · exact hc
  · exact absurd hc hne

theorem isPrefixOf_of_le_le {p k k' : Bytes}
    (hpk : bytesCompare p k ≠ .gt) (hkk : bytesCompare k k' ≠ .gt)
    (hpre : p.isPrefixOf k' = true) : p.isPrefixOf k = true := by
  induction p generalizing k k' with
  | nil => simp [List.isPrefixOf]
  | cons x xs ih =>
    cases k' with
    | nil => simp [List.isPrefixOf] at hpre
    | cons z zs =>
      simp only [List.isPrefixOf, Bool.and_eq_true, beq_iff_eq] at hpre
      obtain ⟨hxz, hpre'⟩ := hpre
      subst hxz
      cases k with
      | nil => simp [bytesCompare] at hpk
      | cons y ys =>
        simp only [bytesCompare] at hpk hkk
        by_cases hxy : x < y
        · have hyx : ¬ y < x := by omega
          simp [hxy, hyx] at hkk
        · by_cases hyx : y < x
          · simp [hxy, hyx] at hpk
          · have hxyeq : x = y := by omega
            subst hxyeq
            simp only [lt_self_iff_false, if_false] at hpk hkk
            simp only [List.isPrefixOf, beq_self_eq_true, Bool.true_and]
            exact ih hpk hkk hpre'

/-! ### Engine-level facts -/

theorem engineGet_eq_none {s : Store} {k : Bytes}
    (h : ∀ e ∈ s, e.1 ≠ k) : engineGet s k = none := by
  have hf : s.find? (fun e => e.1 == k) = none :=
    List.find?_eq_none.mpr (fun e he => by simpa using h e he)
  simp [engineGet, hf]

theorem mem_engineDelete_ne {s : Store} {k : Bytes} (hwf : WFStore s) :
    ∀ e ∈ engineDelete s k, e.1 ≠ k := by
  induction s with
  | nil => intro e he; simp [engineDelete] at he
  | cons a rest ih =>
    obtain ⟨k', v'⟩ := a
    rw [WFStore, List.pairwise_cons] at hwf
    obtain ⟨hhead, htail⟩ := hwf
    intro e he
    simp only [engineDelete] at he
    by_cases hk : k = k'
    · rw [if_pos hk] at he
      subst hk
      have hlt : bytesCompare k e.1 = .lt := hhead e he
      intro heq
      rw [heq, bytesCompare_self] at hlt
      exact absurd hlt (by simp)
    · rw [if_neg hk] at he
      rcases List.mem_cons.mp he with rfl | hmem
      · exact fun heq => hk heq.symm
      · exact ih htail e hmem

theorem engineDelete_of_not_mem {s : Store} {k : Bytes}
    (h : ∀ e ∈ s, e.1 ≠ k) : engineDelete s k = s := by
  induction s with
  | nil => rfl
  | cons a rest ih =>
    obtain ⟨k', v'⟩ := a
    have hk : k ≠ k' := fun heq => h (k', v') (List.mem_cons_self _ _) heq.symm
    simp only [engineDelete, if_neg hk]
    rw [ih (fun e he => h e (List.mem_cons_of_mem _ he))]

theorem engineGet_engineDelete {s : Store} {k : Bytes} (hwf : WFStore s) :
    engineGet (engineDelete s k) k = none :=
  engineGet_eq_none (mem_engineDelete_ne hwf)

theorem engineDelete_idem {s : Store} {k : Bytes} (hwf : WFStore s) :
    engineDelete (engineDelete s k) k = engineDelete s k :=
  engineDelete_of_not_mem (mem_engineDelete_ne hwf)

/-! ### The cursor scan equals a filter over the bucket -/

theorem isPrefixOf_self (a : Bytes) : a.isPrefixOf a = true := by
  induction a with
  | nil => rfl
  | cons x xs ih => simp [List.isPrefixOf, ih]

theorem scanLoop_cons (cp : Bool) (pref : Bytes) (ce : Bool) (endB : Bytes)
    (ko : Bool) (k v : Bytes) (rest : Store) :
    scanLoop cp pref ce endB ko ((k, v) :: rest)
      = if cp && !(pref.isPrefixOf k) then []
        else if cp && (k == pref) then scanLoop cp pref ce endB ko rest
        else if ce && !(bytesCompare endB k == .gt) then []
        else toQueryEntry k v ko :: scanLoop cp pref ce endB ko rest := rfl

theorem scanLoop_eq_filter (cp : Bool) (pref : Bytes) (ce : Bool)
    (endB : Bytes) (ko : Bool) :
    ∀ t : Store, t.Pairwise storeLt →
      (cp = true → ∀ e ∈ t, bytesCompare pref e.1 ≠ .gt) →
      scanLoop cp pref ce endB ko t
        = (t.filter (fun e => scanKeep cp pref ce endB e.1)).map
            (fun e => toQueryEntry e.1 e.2 ko) := by
  intro t
  induction t with
  | nil => intro _ _; rfl
  | cons a rest ih =>
    obtain ⟨k, v⟩ := a
    intro hpw hge
    rw [List.pairwise_cons] at hpw
    obtain ⟨hhead, htail⟩ := hpw
    by_cases hb1 : cp = true ∧ pref.isPrefixOf k = false
    · -- prefix mismatch: the loop breaks, and nothing later can match
      have hprefk : bytesCompare pref k ≠ .gt :=
        hge hb1.1 (k, v) (List.mem_cons_self _ _)
      have hall : ∀ e ∈ (k, v) :: rest,
          ¬ (scanKeep cp pref ce endB e.1 = true) := by
        intro e he
        rcases List.mem_cons.mp he with rfl | hmem
        · simp [scanKeep, hb1.1, hb1.2]
        · have hlt : bytesCompare k e.1 = .lt := hhead e hmem
          have hnp : pref.isPrefixOf e.1 = false := by
            cases hc : pref.isPrefixOf e.1
            · rfl
            · have := isPrefixOf_of_le_le hprefk
                (bytesCompare_le_of_lt hlt) hc
              rw [hb1.2] at this
              exact absurd this (by simp)
          simp [scanKeep, hb1.1, hnp]
      rw [List.filter_eq_nil_iff.mpr hall, scanLoop_cons,
        if_pos (show (cp && !(pref.isPrefixOf k)) = true by
          simp [hb1.1, hb1.2])]
      rfl
    · by_cases hb2 : cp = true ∧ (k == pref) = true
      · -- the key equal to the prefix is skipped
        have hkpref : k = pref := by simpa using hb2.2
        have hc1 : (cp && !(pref.isPrefixOf k)) = false := by
          subst hkpref
          simp [isPrefixOf_self]
        have hskip : scanKeep cp pref ce endB k = false := by
          simp [scanKeep, hb2.1, hb2.2]
        rw [scanLoop_cons, if_neg (by simp [hc1]),
          if_pos (show (cp && (k == pref)) = true by simp [hb2.1, hb2.2]),
          List.filter_cons_of_neg (by simp [hskip]),
          ih htail (fun hcp e he => hge hcp e (List.mem_cons_of_mem _ he))]
      · -- cp implies: the prefix matches and the key differs from it
        have hc1 : (cp && !(pref.isPrefixOf k)) = false := by
          cases hcp : cp
          · simp
          · cases hpk : pref.isPrefixOf k
            · exact absurd ⟨hcp, hpk⟩ hb1
            · simp [hpk]
        have hc2 : (cp && (k == pref)) = false := by
          cases hcp : cp
          · simp
          · cases hkp : (k == pref)
            · simp [hkp]
            · exact absurd ⟨hcp, hkp⟩ hb2
        by_cases hb3 : ce = true ∧ (bytesCompare endB k == .gt) = false
        · -- Range.End reached: the loop breaks, and nothing later can match
          have hendk : bytesCompare k endB ≠ .lt := by
            intro hc
            have hgt : bytesCompare endB k = .gt := by
              rw [bytesCompare_swap, hc]; rfl
            have h2 := hb3.2
            rw [hgt] at h2
            exact absurd h2 (by decide)
          have hall : ∀ e ∈ (k, v) :: rest,
              ¬ (scanKeep cp pref ce endB e.1 = true) := by
            intro e he
            rcases List.mem_cons.mp he with rfl | hmem
            · have hne : (bytesCompare k endB == .lt) = false := by
                cases hc : bytesCompare k endB
                · exact absurd hc hendk
                · decide
                · decide
              simp [scanKeep, hb3.1, hne]
            · have hlt : bytesCompare k e.1 = .lt := hhead e hmem
              have hlt2 : bytesCompare e.1 endB ≠ .lt := fun hc =>
                hendk (bytesCompare_lt_trans hlt hc)
              have hne : (bytesCompare e.1 endB == .lt) = false := by
                cases hc : bytesCompare e.1 endB
                · exact absurd hc hlt2
                · decide
                · decide
              simp [scanKeep, hb3.1, hne]
          rw [List.filter_eq_nil_iff.mpr hall, scanLoop_cons,
            if_neg (by simp [hc1]), if_neg (by simp [hc2]),
            if_pos (show (ce && !(bytesCompare endB k == .gt)) = true by
              simp [hb3.1, hb3.2])]
          rfl
        · -- the entry is emitted
          have hc3 : (ce && !(bytesCompare endB k == .gt)) = false := by
            cases hce : ce
            · simp
            · cases hek : (bytesCompare endB k == .gt)
              · exact absurd ⟨hce, hek⟩ hb3
              · simp [hek]
          have hkeep : scanKeep cp pref ce endB k = true := by
            have h1 : (!cp || (pref.isPrefixOf k && !(k == pref))) = true := by
              cases hcp : cp
              · simp
              · cases hpk : pref.isPrefixOf k
                · exact absurd ⟨hcp, hpk⟩ hb1
                · cases hkp : (k == pref)
                  · simp [hpk, hkp]
                  · exact absurd ⟨hcp, hkp⟩ hb2
            have h2 : (!ce || (bytesCompare k endB == .lt)) = true := by
              cases hce : ce
              · simp
              · cases hek : (bytesCompare endB k == .gt)
                · exact absurd ⟨hce, hek⟩ hb3
                · have hgt : bytesCompare endB k = .gt := by
                    cases hc : bytesCompare endB k
                    · rw [hc] at hek; exact absurd hek (by decide)
                    · rw [hc] at hek; exact absurd hek (by decide)
                    · rfl
                  have hlt : bytesCompare k endB = .lt := by
                    rw [bytesCompare_swap, hgt]; rfl
                  rw [hlt]; decide
            simp [scanKeep, h1, h2]
          rw [scanLoop_cons, if_neg (by simp [hc1]), if_neg (by simp [hc2]),
            if_neg (by simp [hc3]),
            List.filter_cons_of_pos (by simpa using hkeep), List.map_cons,
            ih htail (fun hcp e he => hge hcp e (List.mem_cons_of_mem _ he))]

theorem ord_beq_lt_iff {o : Ordering} : (o == Ordering.lt) = true ↔ o = .lt := by
  cases o <;> decide

theorem bytesCompare_swap_not_gt {a b : Bytes}
    (h : bytesCompare a b ≠ .lt) : bytesCompare b a ≠ .gt := by
  rw [bytesCompare_swap]
  cases hab : bytesCompare a b
  · exact absurd hab h
  · decide
  · decide

theorem mem_cursorSeek_not_lt {s : Store} (cs : Bytes) (hwf : WFStore s) :
    ∀ e ∈ cursorSeek s cs, bytesCompare e.1 cs ≠ .lt := by
  induction s with
  | nil => intro e he; simp [cursorSeek] at he
  | cons a rest ih =>
    obtain ⟨k, v⟩ := a
    rw [WFStore, List.pairwise_cons] at hwf
    obtain ⟨hhead, htail⟩ := hwf
    intro e he
    rw [cursorSeek, List.dropWhile_cons] at he
    by_cases hk : (bytesCompare k cs == .lt) = true
    · rw [if_pos hk] at he
      exact ih htail e he
    · rw [if_neg hk] at he
      have hknlt : bytesCompare k cs ≠ .lt := fun hc =>
        hk (ord_beq_lt_iff.mpr hc)
      rcases List.mem_cons.mp he with rfl | hmem
      · exact hknlt
      · intro hc
        exact hknlt (bytesCompare_lt_trans (hhead e hmem) hc)

theorem wf_cursorSeek {s : Store} (cs : Bytes) (hwf : WFStore s) :
    WFStore (cursorSeek s cs) :=
  List.Pairwise.sublist (List.dropWhile_sublist _) hwf

theorem filter_dropWhile_of_imp {α : Type} (p q : α → Bool) :
    ∀ l : List α, (∀ a ∈ l, p a = true → q a = false) →
      (l.dropWhile p).filter q = l.filter q := by
  intro l
  induction l with
  | nil => intro _; rfl
  | cons a rest ih =>
    intro h
    rw [List.dropWhile_cons]
    by_cases hp : p a = true
    · rw [if_pos hp]
      have hq : q a = false := h a (List.mem_cons_self _ _) hp
      rw [List.filter_cons_of_neg (by simp [hq]),
        ih (fun a' ha' => h a' (List.mem_cons_of_mem _ ha'))]
    · rw [if_neg hp]

/-- Seek-then-scan over a well-formed bucket equals a filter over the whole
bucket, for any observable predicate `mq` that rejects every key below the
seek target and agrees with the loop's emit condition at and above it. -/
theorem seekScan_eq_filter (s : Store) (hwf : WFStore s) (cp : Bool)
    (pref : Bytes) (ce : Bool) (endB : Bytes) (ko : Bool) (cs : Bytes)
    (mq : Bytes → Bool)
    (hpc : cp = true → bytesCompare pref cs ≠ .gt)
    (hdrop : ∀ k, bytesCompare k cs = .lt → mq k = false)
    (hmatch : ∀ k, bytesCompare k cs ≠ .lt →
      mq k = scanKeep cp pref ce endB k) :
    scanLoop cp pref ce endB ko (cursorSeek s cs)
      = (s.filter (fun e => mq e.1)).map (fun e => toQueryEntry e.1 e.2 ko) := by
  have hwf' : WFStore (cursorSeek s cs) := wf_cursorSeek cs hwf
  have hge : cp = true →
      ∀ e ∈ cursorSeek s cs, bytesCompare pref e.1 ≠ .gt := by
    intro hcp e he
    exact bytesCompare_le_trans (hpc hcp)
      (bytesCompare_swap_not_gt (mem_cursorSeek_not_lt cs hwf e he))
  rw [scanLoop_eq_filter cp pref ce endB ko (cursorSeek s cs) hwf' hge]
  have h1 : (cursorSeek s cs).filter (fun e => scanKeep cp pref ce endB e.1)
      = (cursorSeek s cs).filter (fun e => mq e.1) :=
    List.filter_congr (fun e he =>
      (hmatch e.1 (mem_cursorSeek_not_lt cs hwf e he)).symm)
  have h2 : (cursorSeek s cs).filter (fun e => mq e.1)
      = s.filter (fun e => mq e.1) :=
    filter_dropWhile_of_imp _ _ s
      (fun e _ hp => hdrop e.1 (ord_beq_lt_iff.mp hp))
  rw [h1, h2]

theorem matches_pfx_false {p k : Bytes} (hklt : bytesCompare k p = .lt) :
    (p.isPrefixOf k && !(k == p)) = false := by
  cases hc : p.isPrefixOf k
  · rfl
  · exfalso
    have hle : bytesCompare p k ≠ .gt := isPrefixOf_le hc
    have hgt : bytesCompare p k = .gt := by
      rw [bytesCompare_swap, hklt]; rfl
    exact hle hgt

theorem matches_start_true {sk cs k : Bytes} (hA : bytesCompare sk cs ≠ .gt)
    (hk : bytesCompare k cs ≠ .lt) : (!(bytesCompare k sk == .lt)) = true := by
  cases hc : bytesCompare k sk
  · exact absurd (bytesCompare_lt_of_lt_of_le hc hA) hk
  · decide
  · decide

theorem matches_start_false {sk k : Bytes} (hc : bytesCompare k sk = .lt) :
    (!(bytesCompare k sk == .lt)) = false := by
  rw [hc]; decide

theorem nil_of_not_lt_nil {b : Bytes} (h : bytesCompare [] b ≠ .lt) :
    b = [] := by
  cases b with
  | nil => rfl
  | cons x xs => exact absurd rfl h

/-- queryWithCursor over a well-formed bytes-keyed bucket returns exactly
the stored entries whose keys satisfy the query's observable predicate
(strict prefix descendant, Range.Start inclusive, Range.End exclusive), in
bucket (ascending key) order. -/
theorem queryWithCursor_spec (s : Store) (q : Query) (hwf : WFStore s)
    (hp : ∀ p, q.pfx = some p → p.ktype = KeyType.bytes)
    (hs : ∀ p, q.rangeStart = some p → p.ktype = KeyType.bytes)
    (he : ∀ p, q.rangeEnd = some p → p.ktype = KeyType.bytes) :
    queryWithCursor s q KeyType.bytes
      = .ok ((s.filter (fun e => matchesQuery q e.1)).map
          (fun e => toQueryEntry e.1 e.2 q.keysOnly)) := by
  obtain ⟨pfx, rs, re, ko⟩ := q
  have hm1 : keyTypeMismatch pfx KeyType.bytes = false := by
    cases pfx with
    | none => rfl
    | some p =>
      simp only [keyTypeMismatch]
      rw [hp p rfl]
      decide
  have hm2 : keyTypeMismatch rs KeyType.bytes = false := by
    cases rs with
    | none => rfl
    | some p =>
      simp only [keyTypeMismatch]
      rw [hs p rfl]
      decide
  have hm3 : keyTypeMismatch re KeyType.bytes = false := by
    cases re with
    | none => rfl
    | some p =>
      simp only [keyTypeMismatch]
      rw [he p rfl]
      decide
  have hbs : (KeyType.bytes == KeyType.string) = false := by decide
  cases pfx with
  | none =>
    cases rs with
    | none =>
      simp only [queryWithCursor, hm1, hm2, hm3, hbs, Bool.or_self,
        Bool.and_false, Option.isSome_none, Option.isSome_some,
        Bool.false_and, Bool.false_eq_true, if_false, Except.ok.injEq]
      exact seekScan_eq_filter s hwf _ _ _ _ ko [] _
        (fun h => absurd h (by decide))
        (fun k hk => absurd hk (bytesCompare_nil_not_lt k))
        (fun k _ => by
          cases re <;> simp [matchesQuery, scanKeep])
    | some sk =>
      by_cases hlt0 : bytesCompare [] sk.bytes = .lt
      · simp only [queryWithCursor, hm1, hm2, hm3, hbs, Bool.or_self,
          Bool.and_false, Option.isSome_none, Option.isSome_some,
          Bool.false_and, Bool.false_eq_true, if_false, hlt0, if_true,
          Except.ok.injEq]
        exact seekScan_eq_filter s hwf _ _ _ _ ko sk.bytes _
          (fun h => absurd h (by decide))
          (fun k hk => by
            cases re <;>
              simp [matchesQuery, scanKeep, matches_start_false hk])
          (fun k hk => by
            have hst := @matches_start_true sk.bytes sk.bytes k
              (by rw [bytesCompare_self]; decide) hk
            cases re <;> simp [matchesQuery, scanKeep, hst])
      · have hsknil : sk.bytes = [] := nil_of_not_lt_nil hlt0
        simp only [queryWithCursor, hm1, hm2, hm3, hbs, Bool.or_self,
          Bool.and_false, Option.isSome_none, Option.isSome_some,
          Bool.false_and, Bool.false_eq_true, if_false, hlt0,
          Except.ok.injEq]
        exact seekScan_eq_filter s hwf _ _ _ _ ko [] _
          (fun h => absurd h (by decide))
          (fun k hk => absurd hk (bytesCompare_nil_not_lt k))
          (fun k hk => by
            have hst := @matches_start_true sk.bytes [] k
              (by rw [hsknil, bytesCompare_self]; decide) hk
            cases re <;> simp [matchesQuery, scanKeep, hst])
  | some p =>
    cases rs with
    | none =>
      simp only [queryWithCursor, hm1, hm2, hm3, hbs, Bool.or_self,
        Bool.and_false, Option.isSome_none, Option.isSome_some,
        Bool.false_and, Bool.false_eq_true, if_false, Except.ok.injEq]
      exact seekScan_eq_filter s hwf _ _ _ _ ko p.bytes _
        (fun _ => by rw [bytesCompare_self]; decide)
        (fun k hk => by
          cases re <;> simp [matchesQuery, scanKeep, matches_pfx_false hk])
        (fun k _ => by
          cases re <;> simp [matchesQuery, scanKeep])
    | some sk =>
      by_cases hlt0 : bytesCompare p.bytes sk.bytes = .lt
      · simp only [queryWithCursor, hm1, hm2, hm3, hbs, Bool.or_self,
          Bool.and_false, Option.isSome_none, Option.isSome_some,
          Bool.false_and, Bool.false_eq_true, if_false, hlt0, if_true,
          Except.ok.injEq]
        exact seekScan_eq_filter s hwf _ _ _ _ ko sk.bytes _
          (fun _ => bytesCompare_le_of_lt hlt0)
          (fun k hk => by
            cases re <;>
              simp [matchesQuery, scanKeep, matches_start_false hk])
          (fun k hk => by
            have hst := @matches_start_true sk.bytes sk.bytes k
              (by rw [bytesCompare_self]; decide) hk
            cases re <;> simp [matchesQuery, scanKeep, hst])
      · simp only [queryWithCursor, hm1, hm2, hm3, hbs, Bool.or_self,
          Bool.and_false, Option.isSome_none, Option.isSome_some,
          Bool.false_and, Bool.false_eq_true, if_false, hlt0,
          Except.ok.injEq]
        have hskp : bytesCompare sk.bytes p.bytes ≠ .gt :=
          bytesCompare_swap_not_gt hlt0
        exact seekScan_eq_filter s hwf _ _ _ _ ko p.bytes _
          (fun _ => by rw [bytesCompare_self]; decide)
          (fun k hk => by
            cases re <;> simp [matchesQuery, scanKeep, matches_pfx_false hk])
          (fun k hk => by
            have hst := @matches_start_true sk.bytes p.bytes k hskp hk
            cases re <;> simp [matchesQuery, scanKeep, hst])

theorem ord_beq_lt_false_iff {o : Ordering} :
    ((o == Ordering.lt) = false) ↔ o ≠ .lt := by
  cases o <;> decide

/-- The query's selection predicate, spelled out propositionally. -/
theorem matchesQuery_eq_true_iff (q : Query) (k : Bytes) :
    matchesQuery q k = true ↔
      ((∀ p, q.pfx = some p →
          (p.bytes.isPrefixOf k = true ∧ k ≠ p.bytes)) ∧
       (∀ sk, q.rangeStart = some sk → bytesCompare k sk.bytes ≠ .lt) ∧
       (∀ ek, q.rangeEnd = some ek → bytesCompare k ek.bytes = .lt)) := by
  obtain ⟨pfx, rs, re, ko⟩ := q
  cases pfx <;> cases rs <;> cases re <;>
    simp [matchesQuery, ord_beq_lt_iff, ord_beq_lt_false_iff, and_assoc]

theorem mismatch_bool_iff (q : Query) (kt : KeyType) :
    (keyTypeMismatch q.pfx kt || keyTypeMismatch q.rangeStart kt ||
        keyTypeMismatch q.rangeEnd kt) = true ↔
      ((∃ p, q.pfx = some p ∧ p.ktype ≠ kt) ∨
       (∃ p, q.rangeStart = some p ∧ p.ktype ≠ kt) ∨
       (∃ p, q.rangeEnd = some p ∧ p.ktype ≠ kt)) := by
  obtain ⟨pfx, rs, re, ko⟩ := q
  cases pfx <;> cases rs <;> cases re <;>
    simp [keyTypeMismatch, bne_iff_ne, or_assoc]

theorem queryWithCursor_mismatch_error (s : Store) (q : Query)
    (ktype : KeyType)
    (hmis : (keyTypeMismatch q.pfx ktype || keyTypeMismatch q.rangeStart ktype
      || keyTypeMismatch q.rangeEnd ktype) = true) :
    queryWithCursor s q ktype = .error .keyTypeNotMatch := by
  simp [queryWithCursor, hmis]

theorem queryWithCursor_isOk (s : Store) (q : Query)
    (hp : ∀ p, q.pfx = some p → p.ktype = KeyType.bytes)
    (hs : ∀ p, q.rangeStart = some p → p.ktype = KeyType.bytes)
    (he : ∀ p, q.rangeEnd = some p → p.ktype = KeyType.bytes) :
    ∃ res, queryWithCursor s q KeyType.bytes = .ok res := by
  obtain ⟨pfx, rs, re, ko⟩ := q
  have hm1 : keyTypeMismatch pfx KeyType.bytes = false := by
    cases pfx with
    | none => rfl
    | some p =>
      simp only [keyTypeMismatch]
      rw [hp p rfl]
      decide
  have hm2 : keyTypeMismatch rs KeyType.bytes = false := by
    cases rs with
    | none => rfl
    | some p =>
      simp only [keyTypeMismatch]
      rw [hs p rfl]
      decide
  have hm3 : keyTypeMismatch re KeyType.bytes = false := by
    cases re with
    | none => rfl
    | some p =>
      simp only [keyTypeMismatch]
      rw [he p rfl]
      decide
  have hbs : (KeyType.bytes == KeyType.string) = false := by decide
  cases hq : queryWithCursor s ⟨pfx, rs, re, ko⟩ KeyType.bytes with
  | ok res => exact ⟨res, rfl⟩
  | error e => simp [queryWithCursor, hm1, hm2, hm3, hbs] at hq

theorem toQueryEntry_key_bytes (k v : Bytes) (ko : Bool) :
    (toQueryEntry k v ko).key.bytes = k := rfl

/-! ### The claims -/

/-- C1: with Prefix set to a key P, the scan (through Store.Query and
Transaction.Query alike) never emits an entry whose key byte-equals P's
bytes, and emits every stored key of which P's bytes are a strict
byte-prefix, subject to the range bounds. -/
theorem c1_prefix_excludes_exact_and_keeps_descendants
    (d : Datastore) (ro : Bool) (q : Query) (P : Key)
    (hwf : WFStore d.db) (hk : d.ktype = KeyType.bytes)
    (hq : q.pfx = some P) (hPt : P.ktype = KeyType.bytes)
    (hs : ∀ p, q.rangeStart = some p → p.ktype = KeyType.bytes)
    (he : ∀ p, q.rangeEnd = some p → p.ktype = KeyType.bytes) :
    ∃ res, d.Query q = .ok res ∧
      (d.NewTransaction ro).Query q = .ok res ∧
      (∀ e ∈ res, e.key.bytes ≠ P.bytes) ∧
      (∀ kv ∈ d.db, P.bytes.isPrefixOf kv.1 = true → kv.1 ≠ P.bytes →
        (∀ sk, q.rangeStart = some sk → bytesCompare kv.1 sk.bytes ≠ .lt) →
        (∀ ek, q.rangeEnd = some ek → bytesCompare kv.1 ek.bytes = .lt) →
        toQueryEntry kv.1 kv.2 q.keysOnly ∈ res) := by
  have hp : ∀ p, q.pfx = some p → p.ktype = KeyType.bytes := by
    intro p h
    rw [hq] at h
    cases h
    exact hPt
  have hspec := queryWithCursor_spec d.db q hwf hp hs he
  refine ⟨(d.db.filter (fun e => matchesQuery q e.1)).map
    (fun e => toQueryEntry e.1 e.2 q.keysOnly), ?_, ?_, ?_, ?_⟩
  · simp only [Datastore.Query]
    rw [hk]
    exact hspec
  · simp only [Datastore.NewTransaction, Txn.Query]
    rw [hk]
    exact hspec
  · intro e he'
    rcases List.mem_map.mp he' with ⟨kv, hmem, rfl⟩
    rcases List.mem_filter.mp hmem with ⟨_, hmq⟩
    have h3 := (matchesQuery_eq_true_iff q kv.1).mp hmq
    have hne := (h3.1 P hq).2
    simpa [toQueryEntry_key_bytes] using hne
  · intro kv hmem hpre hne hstart hend
    refine List.mem_map.mpr ⟨kv, List.mem_filter.mpr ⟨hmem, ?_⟩, rfl⟩
    exact (matchesQuery_eq_true_iff q kv.1).mpr
      ⟨fun p hp' => by
        rw [hq] at hp'
        cases hp'
        exact ⟨hpre, hne⟩,
       hstart, hend⟩

/-- Witness for C1: the spec's own example, keys "keks" and "keks2" with
Prefix "keks": only the strict descendant may appear, and "keks2" must. -/
theorem c1_witness :
    ∃ res, (Datastore.mk
        [([107,101,107,115], [104]), ([107,101,107,115,50], [105])]
        KeyType.bytes).Query
        ⟨some (Key.mk KeyType.bytes [107,101,107,115]), none, none, false⟩
        = .ok res ∧
      ((Datastore.mk
        [([107,101,107,115], [104]), ([107,101,107,115,50], [105])]
        KeyType.bytes).NewTransaction false).Query
        ⟨some (Key.mk KeyType.bytes [107,101,107,115]), none, none, false⟩
        = .ok res ∧
      (∀ e ∈ res, e.key.bytes ≠ (Key.mk KeyType.bytes [107,101,107,115]).bytes) ∧
      (∀ kv ∈ [([107,101,107,115], [104]), ([107,101,107,115,50], [105])],
        (Key.mk KeyType.bytes [107,101,107,115]).bytes.isPrefixOf kv.1 = true →
        kv.1 ≠ (Key.mk KeyType.bytes [107,101,107,115]).bytes →
        (∀ sk, (⟨some (Key.mk KeyType.bytes [107,101,107,115]), none, none,
            false⟩ : Query).rangeStart = some sk →
          bytesCompare kv.1 sk.bytes ≠ .lt) →
        (∀ ek, (⟨some (Key.mk KeyType.bytes [107,101,107,115]), none, none,
            false⟩ : Query).rangeEnd = some ek →
          bytesCompare kv.1 ek.bytes = .lt) →
        toQueryEntry kv.1 kv.2 false ∈ res) :=
  c1_prefix_excludes_exact_and_keeps_descendants
    (Datastore.mk [([107,101,107,115], [104]), ([107,101,107,115,50], [105])]
      KeyType.bytes)
    false
    ⟨some (Key.mk KeyType.bytes [107,101,107,115]), none, none, false⟩
    (Key.mk KeyType.bytes [107,101,107,115])
    (by decide) rfl rfl rfl
    (fun p h => by cases h) (fun p h => by cases h)

/-- C7: a query with no prefix and no range bounds returns every stored
entry exactly once, in ascending byte-lexicographic key order, through both
the Store facade and the Transaction facade. -/
theorem c7_full_scan_in_order (d : Datastore) (ro : Bool) (ko : Bool)
    (hwf : WFStore d.db) (hk : d.ktype = KeyType.bytes) :
    ∃ res, d.Query ⟨none, none, none, ko⟩ = .ok res ∧
      (d.NewTransaction ro).Query ⟨none, none, none, ko⟩ = .ok res ∧
      res = d.db.map (fun e => toQueryEntry e.1 e.2 ko) ∧
      res.Pairwise (fun a b => bytesCompare a.key.bytes b.key.bytes = .lt) := by
  have hspec := queryWithCursor_spec d.db ⟨none, none, none, ko⟩ hwf
    (fun p h => by cases h) (fun p h => by cases h) (fun p h => by cases h)
  have hfilter : d.db.filter
      (fun e => matchesQuery ⟨none, none, none, ko⟩ e.1) = d.db :=
    List.filter_eq_self.mpr (fun a _ => by simp [matchesQuery])
  refine ⟨d.db.map (fun e => toQueryEntry e.1 e.2 ko), ?_, ?_, rfl, ?_⟩
  · simp only [Datastore.Query]
    rw [hk, hspec, hfilter]
  · simp only [Datastore.NewTransaction, Txn.Query]
    rw [hk, hspec, hfilter]
  · exact hwf.map _ (fun a b hr => hr)

/-- Witness for C7: a three-entry bucket is returned in full, in order. -/
theorem c7_witness :
    ∃ res, (Datastore.mk [([1], [10]), ([1, 0], [11]), ([2], [12])]
        KeyType.bytes).Query ⟨none, none, none, false⟩ = .ok res ∧
      ((Datastore.mk [([1], [10]), ([1, 0], [11]), ([2], [12])]
        KeyType.bytes).NewTransaction true).Query ⟨none, none, none, false⟩
        = .ok res ∧
      res = [([1], [10]), ([1, 0], [11]), ([2], [12])].map
        (fun e => toQueryEntry e.1 e.2 false) ∧
      res.Pairwise (fun a b => bytesCompare a.key.bytes b.key.bytes = .lt) :=
  c7_full_scan_in_order
    (Datastore.mk [([1], [10]), ([1, 0], [11]), ([2], [12])] KeyType.bytes)
    true false (by decide) rfl

/-- C2: with Range.Start = S and Range.End = E (and an optional Prefix),
Query returns exactly the stored keys with S <= k < E under unsigned
byte-lexicographic comparison, combined with the strict-prefix rule, via
both facades. -/
theorem c2_range_bounds_exact (d : Datastore) (ro : Bool) (q : Query)
    (S E : Key) (hwf : WFStore d.db) (hk : d.ktype = KeyType.bytes)
    (hqs : q.rangeStart = some S) (hqe : q.rangeEnd = some E)
    (hSt : S.ktype = KeyType.bytes) (hEt : E.ktype = KeyType.bytes)
    (hp : ∀ p, q.pfx = some p → p.ktype = KeyType.bytes) :
    ∃ res, d.Query q = .ok res ∧
      (d.NewTransaction ro).Query q = .ok res ∧
      res = (d.db.filter (fun e => matchesQuery q e.1)).map
        (fun e => toQueryEntry e.1 e.2 q.keysOnly) ∧
      (∀ kv ∈ d.db,
        (toQueryEntry kv.1 kv.2 q.keysOnly ∈ res ↔
          (bytesCompare kv.1 S.bytes ≠ .lt ∧
           bytesCompare kv.1 E.bytes = .lt ∧
           (∀ p, q.pfx = some p →
             (p.bytes.isPrefixOf kv.1 = true ∧ kv.1 ≠ p.bytes))))) := by
  have hspec := queryWithCursor_spec d.db q hwf hp
    (fun p h => by rw [hqs] at h; cases h; exact hSt)
    (fun p h => by rw [hqe] at h; cases h; exact hEt)
  refine ⟨(d.db.filter (fun e => matchesQuery q e.1)).map
    (fun e => toQueryEntry e.1 e.2 q.keysOnly), ?_, ?_, rfl, ?_⟩
  · simp only [Datastore.Query]
    rw [hk]
    exact hspec
  · simp only [Datastore.NewTransaction, Txn.Query]
    rw [hk]
    exact hspec
  · intro kv hmem
    constructor
    · intro hin
      rcases List.mem_map.mp hin with ⟨kv', hmem', heq⟩
      rcases List.mem_filter.mp hmem' with ⟨_, hmq⟩
      have hkey : kv'.1 = kv.1 := congrArg (fun e => e.key.bytes) heq
      rw [hkey] at hmq
      have h3 := (matchesQuery_eq_true_iff q kv.1).mp hmq
      exact ⟨h3.2.1 S hqs, h3.2.2 E hqe, h3.1⟩
    · intro hcond
      exact List.mem_map.mpr ⟨kv, List.mem_filter.mpr ⟨hmem,
        (matchesQuery_eq_true_iff q kv.1).mpr
          ⟨hcond.2.2,
           fun sk h => by rw [hqs] at h; cases h; exact hcond.1,
           fun ek h => by rw [hqe] at h; cases h; exact hcond.2.1⟩⟩, rfl⟩

/-- Witness for C2: keys [1],[2],[3] with range [2],[3): exactly key [2]
qualifies. -/
theorem c2_witness :
    ∃ res, (Datastore.mk [([1], [1]), ([2], [2]), ([3], [3])]
        KeyType.bytes).Query
        ⟨none, some (Key.mk KeyType.bytes [2]), some (Key.mk KeyType.bytes [3]),
          false⟩ = .ok res ∧
      ((Datastore.mk [([1], [1]), ([2], [2]), ([3], [3])]
        KeyType.bytes).NewTransaction false).Query
        ⟨none, some (Key.mk KeyType.bytes [2]), some (Key.mk KeyType.bytes [3]),
          false⟩ = .ok res ∧
      res = ([([1], [1]), ([2], [2]), ([3], [3])].filter
        (fun e => matchesQuery ⟨none, some (Key.mk KeyType.bytes [2]),
          some (Key.mk KeyType.bytes [3]), false⟩ e.1)).map
        (fun e => toQueryEntry e.1 e.2 false) ∧
      (∀ kv ∈ [([1], [1]), ([2], [2]), ([3], [3])],
        (toQueryEntry kv.1 kv.2 false ∈ res ↔
          (bytesCompare kv.1 (Key.mk KeyType.bytes [2]).bytes ≠ .lt ∧
           bytesCompare kv.1 (Key.mk KeyType.bytes [3]).bytes = .lt ∧
           (∀ p, (⟨none, some (Key.mk KeyType.bytes [2]),
               some (Key.mk KeyType.bytes [3]), false⟩ : Query).pfx = some p →
             (p.bytes.isPrefixOf kv.1 = true ∧ kv.1 ≠ p.bytes))))) :=
  c2_range_bounds_exact
    (Datastore.mk [([1], [1]), ([2], [2]), ([3], [3])] KeyType.bytes) false
    ⟨none, some (Key.mk KeyType.bytes [2]), some (Key.mk KeyType.bytes [3]),
      false⟩
    (Key.mk KeyType.bytes [2]) (Key.mk KeyType.bytes [3])
    (by decide) rfl rfl rfl rfl rfl
    (fun p h => by cases h)

/-- C8: a Prefix present with zero-length bytes yields the same results as
no Prefix at all, for both facades.  (bbolt rejects empty keys, so every
reachable bucket satisfies the nonempty-keys hypothesis.) -/
theorem c8_empty_prefix_is_no_filter (d : Datastore) (ro : Bool)
    (rs re : Option Key) (ko : Bool)
    (hwf : WFStore d.db) (hk : d.ktype = KeyType.bytes)
    (hne : ∀ e ∈ d.db, e.1 ≠ ([] : Bytes))
    (hs : ∀ p, rs = some p → p.ktype = KeyType.bytes)
    (he : ∀ p, re = some p → p.ktype = KeyType.bytes) :
    d.Query ⟨some (Key.mk KeyType.bytes []), rs, re, ko⟩
      = d.Query ⟨none, rs, re, ko⟩ ∧
    (d.NewTransaction ro).Query ⟨some (Key.mk KeyType.bytes []), rs, re, ko⟩
      = (d.NewTransaction ro).Query ⟨none, rs, re, ko⟩ := by
  have hspec1 := queryWithCursor_spec d.db
    ⟨some (Key.mk KeyType.bytes []), rs, re, ko⟩ hwf
    (fun p h => by cases h; rfl) hs he
  have hspec2 := queryWithCursor_spec d.db ⟨none, rs, re, ko⟩ hwf
    (fun p h => by cases h) hs he
  have hfeq : d.db.filter
      (fun e => matchesQuery ⟨some (Key.mk KeyType.bytes []), rs, re, ko⟩ e.1)
      = d.db.filter (fun e => matchesQuery ⟨none, rs, re, ko⟩ e.1) :=
    List.filter_congr (fun e hmem => by
      have hIE : e.1.isEmpty = false := List.isEmpty_eq_false.mpr (hne e hmem)
      simp [matchesQuery, hIE])
  constructor
  · simp only [Datastore.Query]
    rw [hk, hspec1, hspec2, hfeq]
  · simp only [Datastore.NewTransaction, Txn.Query]
    rw [hk, hspec1, hspec2, hfeq]

/-- Witness for C8: on a two-entry bucket the empty-prefix query and the
no-prefix query coincide. -/
theorem c8_witness :
    (Datastore.mk [([1], [5]), ([2], [6])] KeyType.bytes).Query
      ⟨some (Key.mk KeyType.bytes []), none, none, false⟩
      = (Datastore.mk [([1], [5]), ([2], [6])] KeyType.bytes).Query
        ⟨none, none, none, false⟩ ∧
    ((Datastore.mk [([1], [5]), ([2], [6])] KeyType.bytes).NewTransaction
      false).Query ⟨some (Key.mk KeyType.bytes []), none, none, false⟩
      = ((Datastore.mk [([1], [5]), ([2], [6])] KeyType.bytes).NewTransaction
        false).Query ⟨none, none, none, false⟩ :=
  c8_empty_prefix_is_no_filter
    (Datastore.mk [([1], [5]), ([2], [6])] KeyType.bytes) false none none
    false (by decide) rfl (by decide)
    (fun p h => by cases h) (fun p h => by cases h)

/-- C4: when Prefix, Range.Start or Range.End is present with a key-type
different from the store's, Query fails with ErrKeyTypeNotMatch and
produces no entries (no partial scan), through both facades. -/
theorem c4_mismatched_query_key_rejected (d : Datastore) (ro : Bool)
    (q : Query)
    (hmis : (∃ p, q.pfx = some p ∧ p.ktype ≠ d.ktype) ∨
      (∃ p, q.rangeStart = some p ∧ p.ktype ≠ d.ktype) ∨
      (∃ p, q.rangeEnd = some p ∧ p.ktype ≠ d.ktype)) :
    d.Query q = .error .keyTypeNotMatch ∧
    (d.NewTransaction ro).Query q = .error .keyTypeNotMatch := by
  have hb : (keyTypeMismatch q.pfx d.ktype ||
      keyTypeMismatch q.rangeStart d.ktype ||
      keyTypeMismatch q.rangeEnd d.ktype) = true :=
    (mismatch_bool_iff q d.ktype).mpr hmis
  exact ⟨queryWithCursor_mismatch_error d.db q d.ktype hb,
    queryWithCursor_mismatch_error d.db q d.ktype hb⟩

/-- Witness for C4: a String-typed Prefix against a Bytes store errors. -/
theorem c4_witness :
    (Datastore.mk [([1], [1])] KeyType.bytes).Query
      ⟨some (Key.mk KeyType.string [1]), none, none, false⟩
      = .error .keyTypeNotMatch ∧
    ((Datastore.mk [([1], [1])] KeyType.bytes).NewTransaction false).Query
      ⟨some (Key.mk KeyType.string [1]), none, none, false⟩
      = .error .keyTypeNotMatch :=
  c4_mismatched_query_key_rejected
    (Datastore.mk [([1], [1])] KeyType.bytes) false
    ⟨some (Key.mk KeyType.string [1]), none, none, false⟩
    (Or.inl ⟨Key.mk KeyType.string [1], rfl, by decide⟩)

/-- C5: Delete of a correctly-typed key never errors, present or absent;
it is idempotent; and afterwards Has is false — for both facades. -/
theorem c5_delete_idempotent_total (d : Datastore) (ro : Bool) (k : Key)
    (hwf : WFStore d.db) (hkt : k.ktype = d.ktype) :
    ∃ d', d.Delete k = .ok d' ∧ d'.Delete k = .ok d' ∧
      d'.Has k = (false, none) ∧ d'.Get k = .error .notFound ∧
      (∃ t', (d.NewTransaction ro).Delete k = .ok t' ∧
        t'.Delete k = .ok t' ∧ t'.Has k = (false, none)) := by
  have hget : engineGet (engineDelete d.db k.bytes) k.bytes = none :=
    engineGet_engineDelete hwf
  have hidem : engineDelete (engineDelete d.db k.bytes) k.bytes
      = engineDelete d.db k.bytes := engineDelete_idem hwf
  refine ⟨Datastore.mk (engineDelete d.db k.bytes) d.ktype,
    ?_, ?_, ?_, ?_,
    Txn.mk (engineDelete d.db k.bytes) d.ktype, ?_, ?_, ?_⟩
  · simp [Datastore.Delete, hkt]
  · simp [Datastore.Delete, hkt, hidem]
  · simp [Datastore.Has, Datastore.Get, hkt, hget]
  · simp [Datastore.Get, hkt, hget]
  · simp [Datastore.NewTransaction, Txn.Delete, hkt]
  · simp [Txn.Delete, hkt, hidem]
  · simp [Txn.Has, hkt, hget]

/-- Witness for C5: deleting key [1] from a bucket that holds it. -/
theorem c5_witness :
    ∃ d', (Datastore.mk [([1], [2])] KeyType.bytes).Delete
        (Key.mk KeyType.bytes [1]) = .ok d' ∧
      d'.Delete (Key.mk KeyType.bytes [1]) = .ok d' ∧
      d'.Has (Key.mk KeyType.bytes [1]) = (false, none) ∧
      d'.Get (Key.mk KeyType.bytes [1]) = .error .notFound ∧
      (∃ t', ((Datastore.mk [([1], [2])] KeyType.bytes).NewTransaction
          false).Delete (Key.mk KeyType.bytes [1]) = .ok t' ∧
        t'.Delete (Key.mk KeyType.bytes [1]) = .ok t' ∧
        t'.Has (Key.mk KeyType.bytes [1]) = (false, none)) :=
  c5_delete_idempotent_total
    (Datastore.mk [([1], [2])] KeyType.bytes) false
    (Key.mk KeyType.bytes [1]) (by decide) rfl

/-- C6: Has is true iff Get would succeed; GetSize is the stored value's
byte length when present, pairs -1 with NotFound when absent, and pairs -1
with the error on key-type mismatch — for both facades. -/
theorem c6_has_getsize_track_get (d : Datastore) (ro : Bool) (k : Key) :
    ((d.Has k).1 = true ↔ ∃ v, d.Get k = .ok v) ∧
    (((d.NewTransaction ro).Has k).1 = true ↔
      ∃ v, (d.NewTransaction ro).Get k = .ok v) ∧
    (k.ktype ≠ d.ktype →
      (d.GetSize k = (-1, some .keyTypeNotMatch) ∧
       (d.NewTransaction ro).GetSize k = (-1, some .keyTypeNotMatch))) ∧
    (k.ktype = d.ktype →
      ((∀ v, engineGet d.db k.bytes = some v →
         (d.GetSize k = ((v.length : Int), none) ∧
          (d.NewTransaction ro).GetSize k = ((v.length : Int), none))) ∧
       (engineGet d.db k.bytes = none →
         (d.GetSize k = (-1, some .notFound) ∧
          (d.NewTransaction ro).GetSize k = (-1, some .notFound))))) := by
  by_cases hkt : k.ktype = d.ktype
  · refine ⟨?_, ?_, fun h => absurd hkt h, fun _ => ⟨?_, ?_⟩⟩
    · cases hg : engineGet d.db k.bytes with
      | none => simp [Datastore.Has, Datastore.Get, hkt, hg]
      | some v => simp [Datastore.Has, Datastore.Get, hkt, hg]
    · cases hg : engineGet d.db k.bytes with
      | none => simp [Datastore.NewTransaction, Txn.Has, Txn.Get, hkt, hg]
      | some v => simp [Datastore.NewTransaction, Txn.Has, Txn.Get, hkt, hg]
    · intro v hg
      constructor
      · simp [Datastore.GetSize, Datastore.Get, copyBytes, hkt, hg]
      · simp [Datastore.NewTransaction, Txn.GetSize, hkt, hg]
    · intro hg
      constructor
      · simp [Datastore.GetSize, Datastore.Get, hkt, hg]
      · simp [Datastore.NewTransaction, Txn.GetSize, hkt, hg]
  · refine ⟨?_, ?_, fun _ => ⟨?_, ?_⟩, fun h => absurd h hkt⟩
    · simp [Datastore.Has, Datastore.Get, hkt]
    · simp [Datastore.NewTransaction, Txn.Has, Txn.Get, hkt]
    · simp [Datastore.GetSize, hkt]
    · simp [Datastore.NewTransaction, Txn.GetSize, hkt]

/-- Witness for C6: on a bucket holding ([1], [7, 8]), GetSize of key [1]
is 2 with no error, through the Store facade. -/
theorem c6_witness :
    (Datastore.mk [([1], [7, 8])] KeyType.bytes).GetSize
        (Key.mk KeyType.bytes [1]) = (2, none) ∧
    ((Datastore.mk [([1], [7, 8])] KeyType.bytes).NewTransaction
        false).GetSize (Key.mk KeyType.bytes [1]) = (2, none) := by
  have h := c6_has_getsize_track_get
    (Datastore.mk [([1], [7, 8])] KeyType.bytes) false
    (Key.mk KeyType.bytes [1])
  exact (h.2.2.2 rfl).1 [7, 8] rfl

/-- C9: Discard surfaces no error to the caller even when the underlying
rollback fails; the failure is only logged. -/
theorem c9_discard_never_surfaces_error (r : Except DsError Unit) :
    (Txn.Discard r).1 = none ∧
    ((Txn.Discard r).2 ≠ [] ↔ ∃ e, r = .error e) := by
  cases r with
  | ok u => simp [Txn.Discard]
  | error e => simp [Txn.Discard]

/-- C10: every Datastore built by NewDatastore has key-type Bytes, every
derived Transaction inherits it, and on such a store Query succeeds exactly
when no supplied key mismatches — the KeyTypeString branches inside
queryWithCursor can never fire. -/
theorem c10_constructed_stores_are_bytes (contents : Store) (kt : KeyType)
    (d : Datastore) (ro : Bool) (h : NewDatastore contents kt = .ok d) :
    d.ktype = KeyType.bytes ∧ (d.NewTransaction ro).ktype = KeyType.bytes ∧
    (∀ q : Query,
      ((∀ p, q.pfx = some p → p.ktype = KeyType.bytes) ∧
       (∀ p, q.rangeStart = some p → p.ktype = KeyType.bytes) ∧
       (∀ p, q.rangeEnd = some p → p.ktype = KeyType.bytes)) ↔
      ∃ res, d.Query q = .ok res) := by
  have hkt : kt = KeyType.bytes := by
    by_contra hne
    simp [NewDatastore, hne] at h
  subst hkt
  have hd : Datastore.mk contents KeyType.bytes = d := by
    simpa [NewDatastore] using h
  subst hd
  refine ⟨rfl, rfl, fun q => ⟨?_, ?_⟩⟩
  · rintro ⟨hp, hs, he⟩
    exact queryWithCursor_isOk contents q hp hs he
  · rintro ⟨res, hres⟩
    by_cases hb : (keyTypeMismatch q.pfx KeyType.bytes ||
        keyTypeMismatch q.rangeStart KeyType.bytes ||
        keyTypeMismatch q.rangeEnd KeyType.bytes) = true
    · have herr := queryWithCursor_mismatch_error contents q KeyType.bytes hb
      have hres' : queryWithCursor contents q KeyType.bytes
          = Except.ok res := hres
      rw [herr] at hres'
      exact Except.noConfusion hres'
    · have hnd : ¬ ((∃ p, q.pfx = some p ∧ p.ktype ≠ KeyType.bytes) ∨
          (∃ p, q.rangeStart = some p ∧ p.ktype ≠ KeyType.bytes) ∨
          (∃ p, q.rangeEnd = some p ∧ p.ktype ≠ KeyType.bytes)) :=
        fun hdis => hb ((mismatch_bool_iff q KeyType.bytes).mpr hdis)
      push_neg at hnd
      exact ⟨hnd.1, hnd.2.1, hnd.2.2⟩

/-- Witness for C10: NewDatastore with KeyTypeBytes succeeds and the
resulting store and transaction are Bytes-typed; a prefix-free query runs. -/
theorem c10_witness :
    (Datastore.mk [] KeyType.bytes).ktype = KeyType.bytes ∧
    ((Datastore.mk [] KeyType.bytes).NewTransaction true).ktype
      = KeyType.bytes ∧
    (∀ q : Query,
      ((∀ p, q.pfx = some p → p.ktype = KeyType.bytes) ∧
       (∀ p, q.rangeStart = some p → p.ktype = KeyType.bytes) ∧
       (∀ p, q.rangeEnd = some p → p.ktype = KeyType.bytes)) ↔
      ∃ res, (Datastore.mk [] KeyType.bytes).Query q = .ok res) :=
  c10_constructed_stores_are_bytes [] KeyType.bytes
    (Datastore.mk [] KeyType.bytes) true rfl

/-- C3 (code bug at src/txn.go line 38): within a transaction, Put followed
by Get does not round-trip: txn.Get copies the nil named return `value`
instead of the fetched `data`, so it yields empty bytes for every present
key; the Store facade's Get returns the stored value. -/
theorem c3_txn_get_returns_empty :
    (Txn.mk [] KeyType.bytes).Put (Key.mk KeyType.bytes [1]) [2]
      = .ok (Txn.mk [([1], [2])] KeyType.bytes) ∧
    (Txn.mk [([1], [2])] KeyType.bytes).Get (Key.mk KeyType.bytes [1])
      = .ok [] ∧
    (Txn.mk [([1], [2])] KeyType.bytes).Get (Key.mk KeyType.bytes [1])
      ≠ .ok [2] ∧
    (Datastore.mk [] KeyType.bytes).Put (Key.mk KeyType.bytes [1]) [2]
      = .ok (Datastore.mk [([1], [2])] KeyType.bytes) ∧
    (Datastore.mk [([1], [2])] KeyType.bytes).Get (Key.mk KeyType.bytes [1])
      = .ok [2] := by
  refine ⟨rfl, rfl, ?_, rfl, rfl⟩
  intro h
  have h' : (Except.ok ([] : Bytes) : Except DsError Bytes) = .ok [2] := h
  simp at h'

end DsBbolt
